import Mathlib

/-!
Shallow embedding of the floodfill-bg core (src/libs/common.py, src/libs/removal.py)
and verification of its specification.

Conventions of the embedding:
* A pixel buffer (`Img`) is a width, a height and a total pixel function on `ℤ × ℤ`;
  only in-bounds coordinates are ever accessed by the embedded operations, mirroring
  the PIL pixel-access object.
* Machine floats are embedded as `ℚ`.  The source compares
  `color_distance(a, b) = sqrt(d2) <= threshold`; over the reals this holds iff
  `0 ≤ threshold ∧ d2 ≤ threshold²`, so the embedding stores the squared integer
  distance and compares against the squared threshold, avoiding real square roots.
* Python's `collections.deque` used as a FIFO queue is embedded as a `List` popped
  at the head and appended at the tail; the dense `visited` boolean grid is a
  `Finset (ℤ × ℤ)`.
* The BFS `while queue:` loop is embedded with explicit fuel; the fuel
  `seeds.length + 8 * width * height` is proved sufficient (the loop measure
  `|queue| + 8·|unvisited in-bounds cells|` strictly decreases at every iteration).
-/

namespace FloodfillBg

/-- An RGBA pixel value, each channel an integer (0–255 in real buffers;
the embedding does not need the range). Mirrors the 4-tuples of `Image.load()`. -/
structure Color where
  r : ℤ
  g : ℤ
  b : ℤ
  a : ℤ
deriving DecidableEq, Repr

/-- The fully transparent pixel `(0, 0, 0, 0)` written by both removal routines. -/
def clearColor : Color := ⟨0, 0, 0, 0⟩

/-- Squared Euclidean RGB distance. `color_distance` (common.py:7-25) returns
`sqrt((r1-r2)² + (g1-g2)² + (b1-b2)²)`, ignoring alpha; the embedding keeps the
square, which is an exact integer. -/
def colorDistSq (c1 c2 : Color) : ℤ :=
  (c1.r - c2.r) ^ 2 + (c1.g - c2.g) ^ 2 + (c1.b - c2.b) ^ 2

/-- Embedding of `color_distance(sc, c) <= threshold` (removal.py:68,117).
Over the reals, `sqrt d2 ≤ t ↔ (0 ≤ t ∧ d2 ≤ t²)`, which is the form used here. -/
def colorMatch (t : ℚ) (sc c : Color) : Bool :=
  decide (0 ≤ t) && decide ((colorDistSq sc c : ℚ) ≤ t ^ 2)

/-- Embedding of `any(color_distance(sc, current_color) <= threshold for sc in seed_colors)`. -/
def matchesAny (seedColors : List Color) (t : ℚ) (c : Color) : Bool :=
  seedColors.any (fun sc => colorMatch t sc c)

/-- A decoded RGBA pixel buffer: width, height and per-pixel accessor.
Mirrors the `(image.size, image.load())` view used by the source. -/
@[ext]
structure Img where
  width : ℕ
  height : ℕ
  px : ℤ × ℤ → Color

/-- Bounds test `0 <= x < width and 0 <= y < height` of removal.py:76. -/
def InB (W H : ℕ) (p : ℤ × ℤ) : Prop :=
  0 ≤ p.1 ∧ p.1 < (W : ℤ) ∧ 0 ≤ p.2 ∧ p.2 < (H : ℤ)

instance (W H : ℕ) (p : ℤ × ℤ) : Decidable (InB W H p) := by
  unfold InB; infer_instance

/-- The 4-neighborhood deltas of removal.py:48. -/
def neighbors4 : List (ℤ × ℤ) := [(0, -1), (-1, 0), (1, 0), (0, 1)]

/-- The diagonal deltas appended when `eight_way` is set (removal.py:49-50). -/
def neighborsDiag : List (ℤ × ℤ) := [(-1, -1), (1, -1), (-1, 1), (1, 1)]

/-- The neighbor delta list used by the BFS, as built in removal.py:48-50. -/
def neighborList (eightWay : Bool) : List (ℤ × ℤ) :=
  neighbors4 ++ (if eightWay then neighborsDiag else [])

/-- The mutable state of the flood-fill loop: the pixel buffer contents, the
visited grid, the FIFO queue and the running removed counter. -/
structure BfsState where
  px : ℤ × ℤ → Color
  visited : Finset (ℤ × ℤ)
  queue : List (ℤ × ℤ)
  removed : ℕ

/-- The in-bounds neighbor coordinates enqueued at removal.py:74-77. -/
def pushes (W H : ℕ) (nbrs : List (ℤ × ℤ)) (p : ℤ × ℤ) : List (ℤ × ℤ) :=
  (nbrs.map (fun d => (p.1 + d.1, p.2 + d.2))).filter (fun q => decide (InB W H q))

/-- One iteration of the `while queue:` body (removal.py:60-77) after popping `p`
with remaining queue `rest`: skip if visited, else mark visited, test the color,
and on a match clear the pixel, bump the counter and enqueue in-bounds neighbors. -/
def bfsProcess (W H : ℕ) (seedColors : List Color) (t : ℚ) (nbrs : List (ℤ × ℤ))
    (p : ℤ × ℤ) (rest : List (ℤ × ℤ)) (s : BfsState) : BfsState :=
  if p ∈ s.visited then { s with queue := rest }
  else if matchesAny seedColors t (s.px p) then
    { px := Function.update s.px p clearColor
      visited := insert p s.visited
      queue := rest ++ pushes W H nbrs p
      removed := s.removed + 1 }
  else { s with visited := insert p s.visited, queue := rest }

/-- The `while queue:` loop (removal.py:60-77), with explicit fuel.
The fuel used by `floodfill_remove` is proved sufficient below. -/
def bfsRun (W H : ℕ) (seedColors : List Color) (t : ℚ) (nbrs : List (ℤ × ℤ)) :
    ℕ → BfsState → BfsState
  | 0, s => s
  | fuel + 1, s =>
    match s.queue with
    | [] => s
    | p :: rest => bfsRun W H seedColors t nbrs fuel (bfsProcess W H seedColors t nbrs p rest s)

/-- Fuel sufficient for the BFS loop: an upper bound on the loop measure
`|queue| + 8·|unvisited in-bounds cells|` of the initial state. -/
def floodfillFuel (img : Img) (seeds : List (ℤ × ℤ)) : ℕ :=
  seeds.length + 8 * (img.width * img.height)

/-- The final loop state of `floodfill_remove` (removal.py:41-77): seed colors are
the deduplicated colors sampled at the seeds (`list(set(...))`, removal.py:55 —
order is irrelevant since only `any` membership tests are performed), the queue
starts as the seed list (removal.py:58), and nothing is visited. -/
def floodfillRun (img : Img) (seeds : List (ℤ × ℤ)) (t : ℚ) (eightWay : Bool) : BfsState :=
  bfsRun img.width img.height ((seeds.map (fun q => img.px q)).dedup) t
    (neighborList eightWay) (floodfillFuel img seeds) ⟨img.px, ∅, seeds, 0⟩

/-- Embedding of `floodfill_remove` (removal.py:11-79): returns the mutated buffer and the
removed-pixel count. -/
def floodfill_remove (img : Img) (seeds : List (ℤ × ℤ)) (t : ℚ) (eightWay : Bool) :
    Img × ℕ :=
  ({ img with px := (floodfillRun img seeds t eightWay).px },
   (floodfillRun img seeds t eightWay).removed)

/-- The raster-order coordinate list `for y in range(height): for x in range(width)`
(removal.py:114-115). -/
def rasterCoords (W H : ℕ) : List (ℤ × ℤ) :=
  (List.range H).flatMap (fun (y : ℕ) => (List.range W).map (fun (x : ℕ) => ((x : ℤ), (y : ℤ))))

/-- The raster scan of `global_purge` (removal.py:114-119) as a fold over the
pixel function and the removed counter. -/
def purgeFold (img : Img) (seeds : List (ℤ × ℤ)) (t : ℚ) : (ℤ × ℤ → Color) × ℕ :=
  (rasterCoords img.width img.height).foldl
    (fun acc p =>
      if matchesAny (seeds.map (fun q => img.px q)) t (acc.1 p) then
        (Function.update acc.1 p clearColor, acc.2 + 1)
      else acc)
    (img.px, 0)

/-- Embedding of `global_purge` (removal.py:82-121): sample the seed colors (no deduplication,
removal.py:110), then clear every pixel in raster order whose current color is
within threshold of some seed color, counting the cleared pixels. -/
def global_purge (img : Img) (seeds : List (ℤ × ℤ)) (t : ℚ) : Img × ℕ :=
  ({ img with px := (purgeFold img seeds t).1 }, (purgeFold img seeds t).2)

/-! ### Edge trimming (common.py:93-115)

`trim_transparent` delegates to PIL's `Image.getbbox()` and `Image.crop(bbox)`.
These two collaborator primitives are embedded according to their documented
behavior on RGBA images: `getbbox` returns the smallest `(left, top, right,
bottom)` right/bottom-exclusive box containing every pixel with nonzero alpha,
or `None` when there is none, and `crop(box)` returns the `(right-left) ×
(bottom-top)` buffer whose pixel `(x, y)` is the source pixel
`(left + x, top + y)`. -/

/-- A `(left, top, right, bottom)` bounding box, right/bottom-exclusive. -/
@[ext]
structure BBox where
  left : ℤ
  top : ℤ
  right : ℤ
  bottom : ℤ
deriving DecidableEq, Repr

/-- The raster-order list of coordinates of pixels with nonzero alpha. -/
def nonTransparentCoords (img : Img) : List (ℤ × ℤ) :=
  (rasterCoords img.width img.height).filter (fun p => decide ((img.px p).a ≠ 0))

/-- Embedding of `Image.getbbox()` on an RGBA image: the minimal box around the
pixels with nonzero alpha, `none` if the image is fully transparent. -/
def getbbox (img : Img) : Option BBox :=
  match nonTransparentCoords img with
  | [] => none
  | q :: qs =>
    some ⟨((q :: qs).map Prod.fst).foldl min q.1,
          ((q :: qs).map Prod.snd).foldl min q.2,
          ((q :: qs).map Prod.fst).foldl max q.1 + 1,
          ((q :: qs).map Prod.snd).foldl max q.2 + 1⟩

/-- Embedding of `Image.crop(box)`: the box-sized buffer reading translated
pixels from the source. -/
def crop (img : Img) (bb : BBox) : Img :=
  ⟨(bb.right - bb.left).toNat, (bb.bottom - bb.top).toNat,
   fun p => img.px (p.1 + bb.left, p.2 + bb.top)⟩

/-- Embedding of `trim_transparent` (common.py:93-115): crop to the bounding box of the
non-transparent content; if the whole image is transparent, return it unchanged
with the full-extent box. -/
def trim_transparent (img : Img) : Img × BBox :=
  match getbbox img with
  | none => (img, ⟨0, 0, (img.width : ℤ), (img.height : ℤ)⟩)
  | some bb => (crop img bb, bb)

/-! ### Seed parsing (common.py:28-72) -/

/-- The three validation failure kinds of `parse_seed`, distinguished in the
source by the three `ValueError` messages (common.py:50,54,64,69). -/
inductive SeedError where
  | InvalidFormat
  | InvalidNumber
  | OutOfRange
deriving DecidableEq, Repr

/-- Python `str.strip()` on a character list: whitespace dropped from both
ends. Strings are handled as their character lists because the built-in
`String` operations do not reduce in the kernel. -/
def pyStrip (cs : List Char) : List Char :=
  ((cs.dropWhile Char.isWhitespace).reverse.dropWhile Char.isWhitespace).reverse

/-- Python `str.split(",")`: split at every comma; the empty string yields
`[""]`, so `"".split(",")` has one part and `",".split(",")` has two. -/
def splitOnComma : List Char → List (List Char)
  | [] => [[]]
  | c :: rest =>
    if c = ',' then [] :: splitOnComma rest
    else
      match splitOnComma rest with
      | [] => [[c]]
      | l :: ls => (c :: l) :: ls

/-- Python `str.endswith("%")`. -/
def endsWithPct (cs : List Char) : Bool :=
  match cs.reverse with
  | '%' :: _ => true
  | _ => false

/-- Numeric value of a list of decimal digit characters. -/
def digitsVal (l : List Char) : ℕ :=
  l.foldl (fun acc c => 10 * acc + (c.toNat - '0'.toNat)) 0

/-- Embedding of Python's `float(s)` on plain decimal literals: surrounding
whitespace, then an optional sign followed by digits with at most one decimal
point (`"12"`, `"-3.5"`, `".5"`, `"1."`). Exotic float syntax (exponents,
`inf`, `nan`, underscores) is outside the embedding. Returns `none` when the
text is not numeric, mirroring `ValueError`. -/
def parseFloatQ (s : List Char) : Option ℚ :=
  let cs := pyStrip s
  let signRest : ℚ × List Char :=
    match cs with
    | '+' :: r => (1, r)
    | '-' :: r => (-1, r)
    | r => (1, r)
  let sign := signRest.1
  let rest := signRest.2
  let ip := rest.takeWhile (fun c => c.isDigit)
  let rem := rest.dropWhile (fun c => c.isDigit)
  match rem with
  | [] => if ip.isEmpty then none else some (sign * (digitsVal ip : ℚ))
  | '.' :: frac =>
    if frac.all (fun c => c.isDigit) && !(ip.isEmpty && frac.isEmpty) then
      some (sign * ((digitsVal ip : ℚ) + (digitsVal frac : ℚ) / (10 : ℚ) ^ frac.length))
    else none
  | _ => none

/-- Python `int(...)` truncation toward zero on a rational. -/
def pyInt (q : ℚ) : ℤ := if q < 0 then ⌈q⌉ else ⌊q⌋

/-- The per-part body of the `for i, part in enumerate(parts)` loop
(common.py:57-70): strip, branch on a trailing `%`, parse the number
(`InvalidNumber` on failure), range-check (`OutOfRange` on failure), and
produce the pixel value — `(pct / 100) * (max_val - 1)` for percentages,
the value itself for absolutes. -/
def parsePart (part : List Char) (maxVal : ℕ) : Except SeedError ℚ :=
  if endsWithPct (pyStrip part) then
    match parseFloatQ ((pyStrip part).dropLast) with
    | none => .error .InvalidNumber
    | some pct =>
      if 0 ≤ pct ∧ pct ≤ 100 then .ok ((pct / 100) * ((maxVal : ℚ) - 1))
      else .error .OutOfRange
  else
    match parseFloatQ (pyStrip part) with
    | none => .error .InvalidNumber
    | some v =>
      if 0 ≤ v ∧ v < (maxVal : ℚ) then .ok v
      else .error .OutOfRange

/-- Embedding of `parse_seed` (common.py:28-72): split on `","` (after stripping); exactly
two parts are required (`InvalidFormat` otherwise); the parts are validated
left to right (x with `width`, then y with `height`); on success the two values
are truncated to integers. -/
def parse_seed (seedStr : String) (width height : ℕ) : Except SeedError (ℤ × ℤ) :=
  match splitOnComma (pyStrip seedStr.data) with
  | [p0, p1] =>
    match parsePart p0 width with
    | .error e => .error e
    | .ok v0 =>
      match parsePart p1 height with
      | .error e => .error e
      | .ok v1 => .ok (pyInt v0, pyInt v1)
  | _ => .error .InvalidFormat

/-- Predicate `seedMatches img seeds t p`: pixel `p`'s color in `img` is within threshold
`t` of the color sampled at some seed, the match test both removal routines
apply (removal.py:68,117). Deduplication of the seed colors does not change it. -/
def seedMatches (img : Img) (seeds : List (ℤ × ℤ)) (t : ℚ) (p : ℤ × ℤ) : Bool :=
  matchesAny (seeds.map (fun q => img.px q)) t (img.px p)

/-! ### Basic lemmas about the raster coordinate list and color matching -/

lemma mem_rasterCoords {W H : ℕ} {p : ℤ × ℤ} : p ∈ rasterCoords W H ↔ InB W H p := by
  unfold rasterCoords InB
  simp only [List.mem_flatMap, List.mem_map, List.mem_range]
  constructor
  · rintro ⟨y, hy, x, hx, h⟩
    rw [Prod.ext_iff] at h
    obtain ⟨h1, h2⟩ := h
    refine ⟨?_, ?_, ?_, ?_⟩ <;> omega
  · rintro ⟨h1, h2, h3, h4⟩
    refine ⟨p.2.toNat, by omega, p.1.toNat, by omega, ?_⟩
    rw [Prod.ext_iff]
    exact ⟨by simp; omega, by simp; omega⟩

lemma rasterCoords_nodup (W H : ℕ) : (rasterCoords W H).Nodup := by
  unfold rasterCoords
  rw [List.nodup_flatMap]
  constructor
  · intro y _
    exact (List.nodup_range W).map (fun a b h => by
      have h1 := congrArg Prod.fst h
      simpa using h1)
  · refine List.Pairwise.imp ?_ (List.nodup_range H)
    intro y1 y2 hne p hp1 hp2
    simp only [Function.onFun, List.mem_map, List.mem_range] at hp1 hp2
    obtain ⟨x1, _, h1⟩ := hp1
    obtain ⟨x2, _, h2⟩ := hp2
    apply hne
    have h3 : ((y1 : ℤ)) = (y2 : ℤ) := congrArg Prod.snd (h1.trans h2.symm)
    exact_mod_cast h3

lemma length_rasterCoords (W H : ℕ) : (rasterCoords W H).length = H * W := by
  unfold rasterCoords
  induction H with
  | zero => simp
  | succ n ih =>
    rw [List.range_succ, List.flatMap_append, List.length_append, ih]
    simp [Nat.succ_mul]

lemma matchesAny_dedup (l : List Color) (t : ℚ) (c : Color) :
    matchesAny l.dedup t c = matchesAny l t c := by
  unfold matchesAny
  cases h : l.any (fun sc => colorMatch t sc c) with
  | true =>
    rw [List.any_eq_true] at h ⊢
    obtain ⟨sc, hm, hc⟩ := h
    exact ⟨sc, List.mem_dedup.mpr hm, hc⟩
  | false =>
    rw [List.any_eq_false] at h ⊢
    intro sc hm
    exact h sc (List.mem_dedup.mp hm)

/-! ### The global purge loop -/

lemma purge_loop (sc : List Color) (t : ℚ) (orig : ℤ × ℤ → Color) :
    ∀ (l : List (ℤ × ℤ)) (px0 : ℤ × ℤ → Color) (n0 : ℕ),
      (∀ q ∈ l, px0 q = orig q) → l.Nodup →
      l.foldl
          (fun acc p =>
            if matchesAny sc t (acc.1 p) then (Function.update acc.1 p clearColor, acc.2 + 1)
            else acc)
          (px0, n0)
        = (fun p => if p ∈ l ∧ matchesAny sc t (orig p) = true then clearColor else px0 p,
           n0 + l.countP (fun p => matchesAny sc t (orig p))) := by
  intro l
  induction l with
  | nil =>
    intro px0 n0 _ _
    rw [List.foldl_nil, List.countP_nil, Nat.add_zero, Prod.mk.injEq]
    refine ⟨funext fun p => ?_, rfl⟩
    simp
  | cons q l ih =>
    intro px0 n0 h hnd
    have hq : px0 q = orig q := h q (List.mem_cons_self q l)
    have hql : q ∉ l := (List.nodup_cons.mp hnd).1
    simp only [List.foldl_cons]
    rw [hq]
    cases hm : matchesAny sc t (orig q) with
    | true =>
      rw [if_pos rfl]
      rw [ih (Function.update px0 q clearColor) (n0 + 1)
        (fun r hr => by
          have hrq : r ≠ q := fun hr' => hql (hr' ▸ hr)
          rw [Function.update_noteq hrq clearColor px0]
          exact h r (List.mem_cons_of_mem q hr))
        (List.nodup_cons.mp hnd).2]
      rw [Prod.mk.injEq]
      constructor
      · funext p
        by_cases hpq : p = q
        · subst hpq
          by_cases hc : p ∈ l ∧ matchesAny sc t (orig p) = true
          · rw [if_pos hc, if_pos ⟨List.mem_cons_self p l, hm⟩]
          · rw [if_neg hc, Function.update_same, if_pos ⟨List.mem_cons_self p l, hm⟩]
        · rw [Function.update_noteq hpq clearColor px0]
          by_cases hc : p ∈ l ∧ matchesAny sc t (orig p) = true
          · rw [if_pos hc, if_pos ⟨List.mem_cons_of_mem q hc.1, hc.2⟩]
          · rw [if_neg hc,
              if_neg (fun hc' => hc ⟨(List.mem_cons.mp hc'.1).resolve_left hpq, hc'.2⟩)]
      · rw [List.countP_cons, hm]
        simp only [if_pos]
        omega
    | false =>
      simp only [Bool.false_eq_true, if_false]
      rw [ih px0 n0 (fun r hr => h r (List.mem_cons_of_mem q hr)) (List.nodup_cons.mp hnd).2]
      rw [Prod.mk.injEq]
      constructor
      · funext p
        by_cases hpq : p = q
        · subst hpq
          rw [if_neg (fun hc => by rw [hm] at hc; exact Bool.false_ne_true hc.2),
            if_neg (fun hc => by rw [hm] at hc; exact Bool.false_ne_true hc.2)]
        · by_cases hc : p ∈ l ∧ matchesAny sc t (orig p) = true
          · rw [if_pos hc, if_pos ⟨List.mem_cons_of_mem q hc.1, hc.2⟩]
          · rw [if_neg hc,
              if_neg (fun hc' => hc ⟨(List.mem_cons.mp hc'.1).resolve_left hpq, hc'.2⟩)]
      · rw [List.countP_cons, hm]
        simp

/-- Full behavior of `global_purge`: dimensions are kept; a pixel is cleared
iff it is in bounds and within threshold of some sampled seed color, everything
else is untouched; the count is the number of in-bounds matching raster cells. -/
theorem global_purge_spec (img : Img) (seeds : List (ℤ × ℤ)) (t : ℚ) :
    (global_purge img seeds t).1.width = img.width ∧
    (global_purge img seeds t).1.height = img.height ∧
    (∀ p, (global_purge img seeds t).1.px p =
      if InB img.width img.height p ∧ seedMatches img seeds t p = true then clearColor
      else img.px p) ∧
    (global_purge img seeds t).2 =
      (rasterCoords img.width img.height).countP (fun p => seedMatches img seeds t p) := by
  unfold global_purge purgeFold
  rw [purge_loop (seeds.map (fun q => img.px q)) t img.px
    (rasterCoords img.width img.height) img.px 0 (fun _ _ => rfl)
    (rasterCoords_nodup img.width img.height)]
  refine ⟨rfl, rfl, fun p => ?_, by rw [Nat.zero_add]; rfl⟩
  show (if p ∈ rasterCoords img.width img.height ∧ _ then clearColor else img.px p) = _
  by_cases hp : InB img.width img.height p ∧ seedMatches img seeds t p = true
  · rw [if_pos hp, if_pos ⟨mem_rasterCoords.mpr hp.1, hp.2⟩]
  · rw [if_neg hp, if_neg (fun hc => hp ⟨mem_rasterCoords.mp hc.1, hc.2⟩)]

/-! ### Simple consequences: behavior on an empty seed list, global purge contract -/

lemma bfsRun_queue_nil {W H : ℕ} {sc : List Color} {t : ℚ} {nbrs : List (ℤ × ℤ)}
    (fuel : ℕ) (s : BfsState) (h : s.queue = []) :
    bfsRun W H sc t nbrs fuel s = s := by
  cases fuel with
  | zero => rfl
  | succ n => unfold bfsRun; rw [h]

lemma foldl_id {α β : Type*} (f : α → β → α) (l : List β) (a : α)
    (h : ∀ x b, f x b = x) : l.foldl f a = a := by
  induction l generalizing a with
  | nil => rfl
  | cons b l ih => rw [List.foldl_cons, h, ih]

/-- Claim C10: with an empty seed list both removal routines are no-ops
returning the unchanged buffer and a removed count of 0. In `floodfill_remove`
the BFS queue starts empty so the loop body never runs; in `global_purge` the
seed-color list is empty so `any(...)` is `False` at every pixel. -/
theorem empty_seeds_noop (img : Img) (t : ℚ) (w8 : Bool) :
    floodfill_remove img [] t w8 = (img, 0) ∧ global_purge img [] t = (img, 0) := by
  constructor
  · unfold floodfill_remove floodfillRun
    rw [bfsRun_queue_nil _ _ rfl]
  · unfold global_purge purgeFold
    rw [foldl_id _ _ _ (fun x b => by simp [matchesAny])]

/-- Claim C2: `global_purge` clears exactly the in-bounds pixels within
threshold of some sampled seed color, independent of connectivity, leaves all
other pixels unchanged, and returns the number of such pixels. -/
theorem global_purge_correct (img : Img) (seeds : List (ℤ × ℤ)) (t : ℚ)
    (_hne : seeds ≠ []) (_hin : ∀ q ∈ seeds, InB img.width img.height q) :
    (∀ p, InB img.width img.height p →
      (seedMatches img seeds t p = true → (global_purge img seeds t).1.px p = clearColor) ∧
      (seedMatches img seeds t p = false → (global_purge img seeds t).1.px p = img.px p)) ∧
    (global_purge img seeds t).2 =
      ((rasterCoords img.width img.height).filter (fun p => seedMatches img seeds t p)).length := by
  obtain ⟨-, -, hpx, hcnt⟩ := global_purge_spec img seeds t
  refine ⟨fun p hp => ⟨fun hm => ?_, fun hm => ?_⟩, ?_⟩
  · rw [hpx p, if_pos ⟨hp, hm⟩]
  · rw [hpx p, if_neg (fun hc => by rw [hm] at hc; exact Bool.false_ne_true hc.2)]
  · rw [hcnt, List.countP_eq_length_filter]

/-! ### Bounding-box characterization and the trim contract -/

/-- Pixel `p` is an in-bounds pixel of `img` with nonzero alpha — the pixels
`Image.getbbox()` must enclose. -/
def NT (img : Img) (p : ℤ × ℤ) : Prop :=
  InB img.width img.height p ∧ (img.px p).a ≠ 0

instance (img : Img) (p : ℤ × ℤ) : Decidable (NT img p) := by
  unfold NT; infer_instance

/-- Box `bb` encloses all nonzero-alpha pixels of `img` and each of its four edges
is attained by one; this characterizes `getbbox img = some bb`. -/
def BBoxSpec (img : Img) (bb : BBox) : Prop :=
  (∀ p, NT img p → bb.left ≤ p.1 ∧ p.1 < bb.right ∧ bb.top ≤ p.2 ∧ p.2 < bb.bottom) ∧
  (∃ p, NT img p ∧ p.1 = bb.left) ∧ (∃ p, NT img p ∧ p.1 = bb.right - 1) ∧
  (∃ p, NT img p ∧ p.2 = bb.top) ∧ (∃ p, NT img p ∧ p.2 = bb.bottom - 1)

lemma mem_nonTransparentCoords {img : Img} {p : ℤ × ℤ} :
    p ∈ nonTransparentCoords img ↔ NT img p := by
  unfold nonTransparentCoords NT
  rw [List.mem_filter, mem_rasterCoords]
  simp

lemma foldl_min_le_init (l : List ℤ) (a : ℤ) : l.foldl min a ≤ a := by
  induction l generalizing a with
  | nil => exact le_refl a
  | cons b l ih => exact le_trans (ih (min a b)) (min_le_left a b)

lemma foldl_min_le_mem (l : List ℤ) (a x : ℤ) (hx : x ∈ l) : l.foldl min a ≤ x := by
  induction l generalizing a with
  | nil => cases hx
  | cons b l ih =>
    rw [List.foldl_cons]
    rcases List.mem_cons.mp hx with rfl | hx'
    · exact le_trans (foldl_min_le_init l (min a x)) (min_le_right a x)
    · exact ih (min a b) hx'

lemma foldl_min_mem (l : List ℤ) (a : ℤ) : l.foldl min a = a ∨ l.foldl min a ∈ l := by
  induction l generalizing a with
  | nil => exact Or.inl rfl
  | cons b l ih =>
    rw [List.foldl_cons]
    rcases ih (min a b) with h | h
    · rcases min_choice a b with h' | h'
      · exact Or.inl (h.trans h')
      · exact Or.inr (by rw [h, h']; exact List.mem_cons_self b l)
    · exact Or.inr (List.mem_cons_of_mem b h)

lemma le_foldl_max_init (l : List ℤ) (a : ℤ) : a ≤ l.foldl max a := by
  induction l generalizing a with
  | nil => exact le_refl a
  | cons b l ih => exact le_trans (le_max_left a b) (ih (max a b))

lemma mem_le_foldl_max (l : List ℤ) (a x : ℤ) (hx : x ∈ l) : x ≤ l.foldl max a := by
  induction l generalizing a with
  | nil => cases hx
  | cons b l ih =>
    rw [List.foldl_cons]
    rcases List.mem_cons.mp hx with rfl | hx'
    · exact le_trans (le_max_right a x) (le_foldl_max_init l (max a x))
    · exact ih (max a b) hx'

lemma foldl_max_mem (l : List ℤ) (a : ℤ) : l.foldl max a = a ∨ l.foldl max a ∈ l := by
  induction l generalizing a with
  | nil => exact Or.inl rfl
  | cons b l ih =>
    rw [List.foldl_cons]
    rcases ih (max a b) with h | h
    · rcases max_choice a b with h' | h'
      · exact Or.inl (h.trans h')
      · exact Or.inr (by rw [h, h']; exact List.mem_cons_self b l)
    · exact Or.inr (List.mem_cons_of_mem b h)

lemma getbbox_some_spec {img : Img} {bb : BBox} (h : getbbox img = some bb) :
    BBoxSpec img bb := by
  unfold getbbox at h
  generalize hl : nonTransparentCoords img = l at h
  cases l with
  | nil => cases h
  | cons q qs =>
    rw [Option.some.injEq] at h
    subst h
    have hmem : ∀ p : ℤ × ℤ, NT img p → p ∈ q :: qs := fun p hp =>
      hl ▸ mem_nonTransparentCoords.mpr hp
    have hmem' : ∀ p : ℤ × ℤ, p ∈ q :: qs → NT img p := fun p hp =>
      mem_nonTransparentCoords.mp (hl ▸ hp)
    refine ⟨fun p hp => ?_, ?_, ?_, ?_, ?_⟩
    · have hp' := hmem p hp
      have hx1 : p.1 ∈ (q :: qs).map Prod.fst := List.mem_map.mpr ⟨p, hp', rfl⟩
      have hx2 : p.2 ∈ (q :: qs).map Prod.snd := List.mem_map.mpr ⟨p, hp', rfl⟩
      refine ⟨foldl_min_le_mem _ _ _ hx1, ?_, foldl_min_le_mem _ _ _ hx2, ?_⟩
      · have := mem_le_foldl_max ((q :: qs).map Prod.fst) q.1 p.1 hx1
        dsimp only
        omega
      · have := mem_le_foldl_max ((q :: qs).map Prod.snd) q.2 p.2 hx2
        dsimp only
        omega
    · rcases foldl_min_mem ((q :: qs).map Prod.fst) q.1 with h | h
      · exact ⟨q, hmem' q (List.mem_cons_self q qs), h.symm⟩
      · obtain ⟨p, hp, hpx⟩ := List.mem_map.mp h
        exact ⟨p, hmem' p hp, hpx⟩
    · rcases foldl_max_mem ((q :: qs).map Prod.fst) q.1 with h | h
      · exact ⟨q, hmem' q (List.mem_cons_self q qs), by dsimp only; omega⟩
      · obtain ⟨p, hp, hpx⟩ := List.mem_map.mp h
        exact ⟨p, hmem' p hp, by dsimp only; omega⟩
    · rcases foldl_min_mem ((q :: qs).map Prod.snd) q.2 with h | h
      · exact ⟨q, hmem' q (List.mem_cons_self q qs), h.symm⟩
      · obtain ⟨p, hp, hpx⟩ := List.mem_map.mp h
        exact ⟨p, hmem' p hp, hpx⟩
    · rcases foldl_max_mem ((q :: qs).map Prod.snd) q.2 with h | h
      · exact ⟨q, hmem' q (List.mem_cons_self q qs), by dsimp only; omega⟩
      · obtain ⟨p, hp, hpx⟩ := List.mem_map.mp h
        exact ⟨p, hmem' p hp, by dsimp only; omega⟩

lemma getbbox_eq_none_iff {img : Img} : getbbox img = none ↔ ∀ p, ¬NT img p := by
  unfold getbbox
  generalize hl : nonTransparentCoords img = l
  cases l with
  | nil =>
    simp only [true_iff]
    intro p hp
    have : p ∈ nonTransparentCoords img := mem_nonTransparentCoords.mpr hp
    rw [hl] at this
    cases this
  | cons q qs =>
    simp only [reduceCtorEq, false_iff, not_forall, not_not]
    exact ⟨q, mem_nonTransparentCoords.mp (hl ▸ List.mem_cons_self q qs)⟩

lemma bboxSpec_unique {img : Img} {bb bb' : BBox}
    (h : BBoxSpec img bb) (h' : BBoxSpec img bb') : bb = bb' := by
  obtain ⟨hb, ⟨pl, hpl, hl⟩, ⟨pr, hpr, hr⟩, ⟨pt, hpt, ht⟩, ⟨pb, hpb, hbo⟩⟩ := h
  obtain ⟨hb', ⟨pl', hpl', hl'⟩, ⟨pr', hpr', hr'⟩, ⟨pt', hpt', ht'⟩, ⟨pb', hpb', hbo'⟩⟩ := h'
  have h1 := hb pl' hpl'
  have h2 := hb' pl hpl
  have h3 := hb pr' hpr'
  have h4 := hb' pr hpr
  have h5 := hb pt' hpt'
  have h6 := hb' pt hpt
  have h7 := hb pb' hpb'
  have h8 := hb' pb hpb
  ext <;> omega

lemma bboxSpec_bounds {img : Img} {bb : BBox} (h : BBoxSpec img bb) :
    0 ≤ bb.left ∧ bb.left < bb.right ∧ bb.right ≤ (img.width : ℤ) ∧
    0 ≤ bb.top ∧ bb.top < bb.bottom ∧ bb.bottom ≤ (img.height : ℤ) := by
  obtain ⟨hb, ⟨pl, hpl, hl⟩, ⟨pr, hpr, hr⟩, ⟨pt, hpt, ht⟩, ⟨pb, hpb, hb2⟩⟩ := h
  have h1 := hb pl hpl
  have h2 := hb pr hpr
  have h3 := hb pt hpt
  have h4 := hb pb hpb
  unfold NT InB at hpl hpr hpt hpb
  obtain ⟨⟨a1, a2, a3, a4⟩, -⟩ := hpl
  obtain ⟨⟨b1, b2, b3, b4⟩, -⟩ := hpr
  obtain ⟨⟨c1, c2, c3, c4⟩, -⟩ := hpt
  obtain ⟨⟨d1, d2, d3, d4⟩, -⟩ := hpb
  omega

/-- Claim C4: when the buffer has a nonzero-alpha pixel, `trim_transparent`
returns the smallest right/bottom-exclusive box containing every such pixel
and a buffer of exactly the pixels inside it; when it has none, it returns the
original buffer with the full-extent box. -/
theorem trim_transparent_correct (img : Img) :
    ((∃ p, NT img p) →
      (∀ p, NT img p →
        (trim_transparent img).2.left ≤ p.1 ∧ p.1 < (trim_transparent img).2.right ∧
        (trim_transparent img).2.top ≤ p.2 ∧ p.2 < (trim_transparent img).2.bottom) ∧
      (∀ bb' : BBox,
        (∀ p, NT img p →
          bb'.left ≤ p.1 ∧ p.1 < bb'.right ∧ bb'.top ≤ p.2 ∧ p.2 < bb'.bottom) →
        bb'.left ≤ (trim_transparent img).2.left ∧
        (trim_transparent img).2.right ≤ bb'.right ∧
        bb'.top ≤ (trim_transparent img).2.top ∧
        (trim_transparent img).2.bottom ≤ bb'.bottom) ∧
      (((trim_transparent img).1.width : ℤ) =
        (trim_transparent img).2.right - (trim_transparent img).2.left) ∧
      (((trim_transparent img).1.height : ℤ) =
        (trim_transparent img).2.bottom - (trim_transparent img).2.top) ∧
      (∀ p, (trim_transparent img).1.px p =
        img.px (p.1 + (trim_transparent img).2.left, p.2 + (trim_transparent img).2.top))) ∧
    ((∀ p, ¬NT img p) →
      trim_transparent img = (img, ⟨0, 0, (img.width : ℤ), (img.height : ℤ)⟩)) := by
  cases hbb : getbbox img with
  | none =>
    have hno := getbbox_eq_none_iff.mp hbb
    constructor
    · rintro ⟨p, hp⟩
      exact absurd hp (hno p)
    · intro _
      unfold trim_transparent
      rw [hbb]
  | some bb =>
    have hspec := getbbox_some_spec hbb
    have hbd := bboxSpec_bounds hspec
    have htrim : trim_transparent img = (crop img bb, bb) := by
      unfold trim_transparent
      rw [hbb]
    constructor
    · intro _
      rw [htrim]
      dsimp only
      obtain ⟨hb, hal, har, hat, hab⟩ := hspec
      refine ⟨hb, ?_, ?_, ?_, fun p => rfl⟩
      · intro bb' hbb'
        obtain ⟨pl, hpl, hl⟩ := hal
        obtain ⟨pr, hpr, hr⟩ := har
        obtain ⟨pt, hpt, ht⟩ := hat
        obtain ⟨pb, hpb, hb2⟩ := hab
        have e1 := hbb' pl hpl
        have e2 := hbb' pr hpr
        have e3 := hbb' pt hpt
        have e4 := hbb' pb hpb
        omega
      · unfold crop
        dsimp only
        omega
      · unfold crop
        dsimp only
        omega
    · intro hno
      obtain ⟨-, ⟨pl, hpl, -⟩, -, -, -⟩ := hspec
      exact absurd hpl (hno pl)

/-- Claim C8: `trim_transparent` is idempotent — applied to its own output
buffer it returns that buffer unchanged together with the full-extent box of
the trimmed buffer. -/
theorem trim_transparent_idem (img : Img) :
    trim_transparent (trim_transparent img).1 =
      ((trim_transparent img).1,
        (⟨0, 0, ((trim_transparent img).1.width : ℤ),
          ((trim_transparent img).1.height : ℤ)⟩ : BBox)) := by
  cases hbb : getbbox img with
  | none =>
    have h1 : trim_transparent img = (img, ⟨0, 0, (img.width : ℤ), (img.height : ℤ)⟩) := by
      unfold trim_transparent
      rw [hbb]
    rw [h1]
    dsimp only
    exact h1
  | some bb =>
    have hspec := getbbox_some_spec hbb
    have hbd := bboxSpec_bounds hspec
    have htrim : trim_transparent img = (crop img bb, bb) := by
      unfold trim_transparent
      rw [hbb]
    rw [htrim]
    dsimp only
    have hw : (((crop img bb).width : ℤ)) = bb.right - bb.left := by
      unfold crop
      dsimp only
      omega
    have hh : (((crop img bb).height : ℤ)) = bb.bottom - bb.top := by
      unfold crop
      dsimp only
      omega
    have hNT : ∀ p : ℤ × ℤ, NT (crop img bb) p ↔ NT img (p.1 + bb.left, p.2 + bb.top) := by
      intro p
      unfold NT crop InB
      dsimp only
      constructor
      · rintro ⟨⟨h1, h2, h3, h4⟩, ha⟩
        refine ⟨⟨?_, ?_, ?_, ?_⟩, ha⟩ <;> omega
      · rintro ⟨⟨h1, h2, h3, h4⟩, ha⟩
        have hc := hspec.1 (p.1 + bb.left, p.2 + bb.top) ⟨⟨h1, h2, h3, h4⟩, ha⟩
        dsimp only at hc
        refine ⟨⟨?_, ?_, ?_, ?_⟩, ha⟩ <;> omega
    have hfull : BBoxSpec (crop img bb)
        ⟨0, 0, ((crop img bb).width : ℤ), ((crop img bb).height : ℤ)⟩ := by
      obtain ⟨hb, ⟨pl, hpl, hl⟩, ⟨pr, hpr, hr⟩, ⟨pt, hpt, ht⟩, ⟨pb, hpb, hb2⟩⟩ := hspec
      have hwit : ∀ q : ℤ × ℤ, NT img q →
          NT (crop img bb) (q.1 - bb.left, q.2 - bb.top) := by
        intro q hq
        rw [hNT]
        have he : ((q.1 - bb.left) + bb.left, (q.2 - bb.top) + bb.top) = q := by
          rw [Prod.ext_iff]
          constructor <;> dsimp only <;> ring
        rw [he]
        exact hq
      refine ⟨?_, ?_, ?_, ?_, ?_⟩
      · intro p hp
        have hc := hb _ ((hNT p).mp hp)
        dsimp only at hc ⊢
        omega
      · exact ⟨(pl.1 - bb.left, pl.2 - bb.top), hwit pl hpl, by dsimp only; omega⟩
      · exact ⟨(pr.1 - bb.left, pr.2 - bb.top), hwit pr hpr, by dsimp only; omega⟩
      · exact ⟨(pt.1 - bb.left, pt.2 - bb.top), hwit pt hpt, by dsimp only; omega⟩
      · exact ⟨(pb.1 - bb.left, pb.2 - bb.top), hwit pb hpb, by dsimp only; omega⟩
    obtain ⟨p0, hp0, -⟩ := hfull.2.1
    cases hbb2 : getbbox (crop img bb) with
    | none => exact absurd hp0 (getbbox_eq_none_iff.mp hbb2 p0)
    | some bb2 =>
      have hbb2eq : bb2 =
          ⟨0, 0, ((crop img bb).width : ℤ), ((crop img bb).height : ℤ)⟩ :=
        bboxSpec_unique (getbbox_some_spec hbb2) hfull
      unfold trim_transparent
      rw [hbb2, hbb2eq]
      rw [Prod.mk.injEq]
      refine ⟨?_, rfl⟩
      unfold crop
      refine Img.ext ?_ ?_ ?_
      · dsimp only
        omega
      · dsimp only
        omega
      · funext p
        dsimp only
        exact congrArg img.px (by rw [Prod.ext_iff]; constructor <;> dsimp only <;> ring)

/-! ### Characterization of `parse_seed` -/

/-- Whether a seed part (after stripping) carries the percent marker. -/
def partIsPct (part : List Char) : Bool := endsWithPct (pyStrip part)

/-- The numeric reading of one seed part: its stripped text, without a trailing
`%` if present, parsed as a decimal; `none` when the part is not numeric. -/
def partNumber (part : List Char) : Option ℚ :=
  if partIsPct part then parseFloatQ ((pyStrip part).dropLast) else parseFloatQ (pyStrip part)

/-- Whether a numeric seed part passes its range check: `[0, 100]` for a
percentage, `[0, maxVal)` for an absolute coordinate. -/
def partRangeOkB (part : List Char) (maxVal : ℕ) : Bool :=
  match partNumber part with
  | none => false
  | some v =>
    if partIsPct part then decide (0 ≤ v ∧ v ≤ 100) else decide (0 ≤ v ∧ v < (maxVal : ℚ))

/-- The pixel value a valid seed part denotes before truncation:
`(pct / 100) * (maxVal - 1)` for a percentage, the bare value otherwise. -/
def partValue (part : List Char) (maxVal : ℕ) : ℚ :=
  match partNumber part with
  | none => 0
  | some v => if partIsPct part then (v / 100) * ((maxVal : ℚ) - 1) else v

lemma partRangeOkB_none {part : List Char} {m : ℕ} (h : partNumber part = none) :
    partRangeOkB part m = false := by
  unfold partRangeOkB
  rw [h]

lemma partRangeOkB_isSome {part : List Char} {m : ℕ} (h : partRangeOkB part m = true) :
    partNumber part ≠ none := by
  intro hn
  rw [partRangeOkB_none hn] at h
  cases h

lemma parsePart_eq (part : List Char) (m : ℕ) :
    parsePart part m =
      match partNumber part with
      | none => Except.error SeedError.InvalidNumber
      | some _ =>
        if partRangeOkB part m then Except.ok (partValue part m)
        else Except.error SeedError.OutOfRange := by
  unfold parsePart partNumber partRangeOkB partValue partIsPct
  cases hp : endsWithPct (pyStrip part) with
  | true =>
    simp only [eq_self_iff_true, if_true]
    have hnum : partNumber part = parseFloatQ ((pyStrip part).dropLast) := by
      unfold partNumber partIsPct
      rw [if_pos hp]
    rw [hnum]
    cases hn : parseFloatQ ((pyStrip part).dropLast) with
    | none => rfl
    | some v =>
      dsimp only
      by_cases hr : 0 ≤ v ∧ v ≤ 100
      · rw [if_pos hr, if_pos (decide_eq_true hr)]
      · rw [if_neg hr, if_neg (fun hc => hr (of_decide_eq_true hc))]
  | false =>
    simp only [Bool.false_eq_true, if_false]
    have hnum : partNumber part = parseFloatQ (pyStrip part) := by
      unfold partNumber partIsPct
      rw [if_neg (fun hc => Bool.false_ne_true (hp ▸ hc))]
    rw [hnum]
    cases hn : parseFloatQ (pyStrip part) with
    | none => rfl
    | some v =>
      dsimp only
      by_cases hr : 0 ≤ v ∧ v < (m : ℚ)
      · rw [if_pos hr, if_pos (decide_eq_true hr)]
      · rw [if_neg hr, if_neg (fun hc => hr (of_decide_eq_true hc))]

lemma parsePart_cases (part : List Char) (m : ℕ) :
    (partNumber part = none ∧ parsePart part m = .error .InvalidNumber) ∨
    (partNumber part ≠ none ∧ partRangeOkB part m = false ∧
      parsePart part m = .error .OutOfRange) ∨
    (partRangeOkB part m = true ∧ parsePart part m = .ok (partValue part m)) := by
  cases hn : partNumber part with
  | none => exact Or.inl ⟨rfl, by rw [parsePart_eq, hn]⟩
  | some v =>
    cases hr : partRangeOkB part m with
    | false =>
      refine Or.inr (Or.inl ⟨fun hno => Option.noConfusion hno, rfl, ?_⟩)
      rw [parsePart_eq, hn]
      dsimp only
      rw [hr]
      simp
    | true =>
      refine Or.inr (Or.inr ⟨rfl, ?_⟩)
      rw [parsePart_eq, hn]
      dsimp only
      rw [hr]
      simp

/-- Claim C5 as stated is false: `parse_seed` validates the parts left to
right, so on `"10,a"` with a 10×10 image the out-of-range x part is reported
as `OutOfRange` even though the y part `"a"` is not numeric — the claimed
"`InvalidNumber` exactly when a part is not numeric" biconditional fails. -/
theorem parse_seed_error_kind_counterexample :
    parse_seed "10,a" 10 10 = .error .OutOfRange ∧
    partNumber ['a'] = none ∧
    parse_seed "10,a" 10 10 ≠ .error .InvalidNumber := by
  have hpart : parsePart ['1', '0'] 10 = .error .OutOfRange := by
    unfold parsePart
    rw [show endsWithPct (pyStrip ['1', '0']) = false from rfl]
    simp only [Bool.false_eq_true, if_false]
    rw [show parseFloatQ (pyStrip ['1', '0']) = some ((1 : ℚ) * ((10 : ℕ) : ℚ)) from rfl]
    dsimp only
    rw [if_neg (by norm_num)]
  have h1 : parse_seed "10,a" 10 10 = .error .OutOfRange := by
    unfold parse_seed
    rw [show splitOnComma (pyStrip ("10,a".data)) = [['1', '0'], ['a']] from rfl]
    dsimp only
    rw [hpart]
  refine ⟨h1, rfl, fun hc => ?_⟩
  rw [h1] at hc
  injection hc with hc'
  cases hc'

/-- Claim C5 (amended): `parse_seed` fails with `InvalidFormat` exactly when
the string does not split into two comma-separated parts; otherwise the parts
are validated left to right (x before y), each part first for numericness and
then for range, and the first failing part determines the error kind —
`InvalidNumber` if it is not numeric, `OutOfRange` if it is numeric but out of
range ([0,100] for a percentage, [0, dimension) for an absolute coordinate).
On valid input the prescribed coordinate is returned: a percentage part p%
maps to truncate((p/100)·(dimension−1)) and an absolute part to truncate(p). -/
theorem parse_seed_spec (s : String) (w h : ℕ) (_hw : 1 ≤ w) (_hh : 1 ≤ h) :
    (parse_seed s w h = .error .InvalidFormat ↔ (splitOnComma (pyStrip s.data)).length ≠ 2) ∧
    (∀ p0 p1, splitOnComma (pyStrip s.data) = [p0, p1] →
      (parse_seed s w h = .error .InvalidNumber ↔
        partNumber p0 = none ∨ (partRangeOkB p0 w = true ∧ partNumber p1 = none)) ∧
      (parse_seed s w h = .error .OutOfRange ↔
        (partNumber p0 ≠ none ∧ partRangeOkB p0 w = false) ∨
        (partRangeOkB p0 w = true ∧ partNumber p1 ≠ none ∧ partRangeOkB p1 h = false)) ∧
      (partRangeOkB p0 w = true → partRangeOkB p1 h = true →
        parse_seed s w h = .ok (pyInt (partValue p0 w), pyInt (partValue p1 h)))) := by
  constructor
  · cases hsp : splitOnComma (pyStrip s.data) with
    | nil =>
      unfold parse_seed
      rw [hsp]
      simp
    | cons a tl =>
      cases tl with
      | nil =>
        unfold parse_seed
        rw [hsp]
        simp
      | cons b tl2 =>
        cases tl2 with
        | nil =>
          unfold parse_seed
          rw [hsp]
          dsimp only
          refine iff_of_false ?_ (by simp)
          rcases parsePart_cases a w with ⟨-, he⟩ | ⟨-, -, he⟩ | ⟨-, he⟩ <;> rw [he]
          · simp
          · simp
          · rcases parsePart_cases b h with ⟨-, he2⟩ | ⟨-, -, he2⟩ | ⟨-, he2⟩ <;>
              rw [he2] <;> simp
        | cons c tl3 =>
          unfold parse_seed
          rw [hsp]
          simp
  · intro p0 p1 hsp
    have hred : parse_seed s w h =
        (match parsePart p0 w with
         | .error e => .error e
         | .ok v0 =>
           match parsePart p1 h with
           | .error e => .error e
           | .ok v1 => .ok (pyInt v0, pyInt v1)) := by
      unfold parse_seed
      rw [hsp]
    rcases parsePart_cases p0 w with ⟨h0n, h0e⟩ | ⟨h0n, h0r, h0e⟩ | ⟨h0r, h0e⟩
    · rw [hred, h0e]
      dsimp only
      refine ⟨iff_of_true rfl (Or.inl h0n), iff_of_false (by simp) ?_, ?_⟩
      · rintro (⟨hne, -⟩ | ⟨hok, -⟩)
        · exact hne h0n
        · exact partRangeOkB_isSome hok h0n
      · intro hok _
        exact absurd h0n (partRangeOkB_isSome hok)
    · rw [hred, h0e]
      dsimp only
      refine ⟨iff_of_false (by simp) ?_, iff_of_true rfl (Or.inl ⟨h0n, h0r⟩), ?_⟩
      · rintro (h0n' | ⟨h0r', -⟩)
        · exact h0n h0n'
        · exact Bool.noConfusion (h0r'.symm.trans h0r)
      · intro hok _
        exact Bool.noConfusion (hok.symm.trans h0r)
    · rcases parsePart_cases p1 h with ⟨h1n, h1e⟩ | ⟨h1n, h1r, h1e⟩ | ⟨h1r, h1e⟩
      · rw [hred, h0e, h1e]
        dsimp only
        refine ⟨iff_of_true rfl (Or.inr ⟨h0r, h1n⟩), iff_of_false (by simp) ?_, ?_⟩
        · rintro (⟨-, h0r'⟩ | ⟨-, h1ne, -⟩)
          · exact Bool.noConfusion (h0r.symm.trans h0r')
          · exact h1ne h1n
        · intro _ h1ok
          exact absurd h1n (partRangeOkB_isSome h1ok)
      · rw [hred, h0e, h1e]
        dsimp only
        refine ⟨iff_of_false (by simp) ?_, iff_of_true rfl (Or.inr ⟨h0r, h1n, h1r⟩), ?_⟩
        · rintro (h0n' | ⟨-, h1n'⟩)
          · exact absurd h0n' (partRangeOkB_isSome h0r)
          · exact h1n h1n'
        · intro _ h1ok
          exact Bool.noConfusion (h1ok.symm.trans h1r)
      · rw [hred, h0e, h1e]
        dsimp only
        refine ⟨iff_of_false (by simp) ?_, iff_of_false (by simp) ?_, fun _ _ => rfl⟩
        · rintro (h0n' | ⟨-, h1n'⟩)
          · exact absurd h0n' (partRangeOkB_isSome h0r)
          · exact absurd h1n' (partRangeOkB_isSome h1r)
        · rintro (⟨-, h0r'⟩ | ⟨-, -, h1r'⟩)
          · exact Bool.noConfusion (h0r.symm.trans h0r')
          · exact Bool.noConfusion (h1r.symm.trans h1r')

/-- Witness for `parse_seed_spec`: at `"50%,50%"` on a 101×101 image the
hypotheses hold and the spec yields the prescribed `(50, 50)`. -/
theorem parse_seed_spec_witness :
    (1 : ℕ) ≤ 101 ∧ parse_seed "50%,50%" 101 101 = .ok (50, 50) := by
  have hnum : partNumber ['5', '0', '%'] = some ((1 : ℚ) * ((50 : ℕ) : ℚ)) := rfl
  have hr : partRangeOkB ['5', '0', '%'] 101 = true := by
    unfold partRangeOkB
    rw [hnum]
    dsimp only
    rw [show partIsPct ['5', '0', '%'] = true from rfl, if_pos rfl]
    exact decide_eq_true (by norm_num)
  have h := ((parse_seed_spec "50%,50%" 101 101 (by decide) (by decide)).2
    ['5', '0', '%'] ['5', '0', '%'] (by rfl)).2.2 hr hr
  have hv : partValue ['5', '0', '%'] 101 = 50 := by
    unfold partValue
    rw [hnum]
    dsimp only
    rw [show partIsPct ['5', '0', '%'] = true from rfl, if_pos rfl]
    norm_num
  have hi : pyInt (partValue ['5', '0', '%'] 101) = 50 := by
    rw [hv]
    unfold pyInt
    rw [if_neg (by norm_num), show ((50 : ℚ)) = (((50 : ℤ) : ℚ)) from by norm_num,
      Int.floor_intCast]
  refine ⟨by decide, ?_⟩
  rw [h, hi]

/-! ### The flood-fill BFS: invariant, termination and characterization -/

/-- The color test applied to the original buffer contents: pixel `p`'s
original color is within threshold of some color of `sc`. -/
def GoodPx (sc : List Color) (t : ℚ) (orig : ℤ × ℤ → Color) (p : ℤ × ℤ) : Prop :=
  matchesAny sc t (orig p) = true

/-- Reachability through matching pixels: a pixel is reachable when it is a
seed, or an in-bounds grid neighbor of a reachable pixel whose color passes
the seed-color test. The flood fill removes exactly the reachable matching
pixels. -/
inductive ReachG (W H : ℕ) (good : (ℤ × ℤ) → Prop) (seeds : List (ℤ × ℤ))
    (nbrs : List (ℤ × ℤ)) : (ℤ × ℤ) → Prop
  | seed (p : ℤ × ℤ) (hp : p ∈ seeds) : ReachG W H good seeds nbrs p
  | step (p d : ℤ × ℤ) (hp : ReachG W H good seeds nbrs p) (hg : good p) (hd : d ∈ nbrs)
      (hq : InB W H (p.1 + d.1, p.2 + d.2)) : ReachG W H good seeds nbrs (p.1 + d.1, p.2 + d.2)

lemma ReachG_congr {W H : ℕ} {good good' : (ℤ × ℤ) → Prop} {seeds nbrs : List (ℤ × ℤ)}
    (hg : ∀ q, good q ↔ good' q) {p : ℤ × ℤ} :
    ReachG W H good seeds nbrs p → ReachG W H good' seeds nbrs p := by
  intro h
  induction h with
  | seed q hq => exact ReachG.seed q hq
  | step q d _ hgq hd hqin ih => exact ReachG.step q d ih ((hg q).mp hgq) hd hqin

lemma ReachG_inB {W H : ℕ} {good : (ℤ × ℤ) → Prop} {seeds nbrs : List (ℤ × ℤ)} {p : ℤ × ℤ}
    (hin : ∀ q ∈ seeds, InB W H q) (h : ReachG W H good seeds nbrs p) : InB W H p := by
  induction h with
  | seed q hq => exact hin q hq
  | step q d _ _ _ hq _ => exact hq

/-- The in-bounds grid cells as a finite set. -/
def boundsFinset (W H : ℕ) : Finset (ℤ × ℤ) := (rasterCoords W H).toFinset

lemma mem_boundsFinset {W H : ℕ} {p : ℤ × ℤ} : p ∈ boundsFinset W H ↔ InB W H p := by
  unfold boundsFinset
  rw [List.mem_toFinset, mem_rasterCoords]

/-- The loop measure: queue length plus 8 per unvisited in-bounds cell.
It strictly decreases at every iteration of the BFS loop. -/
def bfsMeasure (W H : ℕ) (s : BfsState) : ℕ :=
  s.queue.length + 8 * ((boundsFinset W H) \ s.visited).card

/-- The loop invariant of the BFS: `R` is the set of pixels cleared so far.
Cleared pixels are visited, matching, reachable; visited pixels are in-bounds
and reachable, and are in `R` when they match; queue entries are in-bounds and
reachable; the in-bounds neighbors of every cleared pixel are visited or
queued; every seed is visited or queued. -/
structure BfsInv (W H : ℕ) (orig : ℤ × ℤ → Color) (sc : List Color) (t : ℚ)
    (nbrs : List (ℤ × ℤ)) (seeds : List (ℤ × ℤ)) (s : BfsState) (R : Finset (ℤ × ℤ)) :
    Prop where
  pxEq : ∀ p, s.px p = if p ∈ R then clearColor else orig p
  cnt : s.removed = R.card
  sub : ∀ p ∈ R, p ∈ s.visited
  rspec : ∀ p ∈ R, GoodPx sc t orig p ∧ ReachG W H (GoodPx sc t orig) seeds nbrs p
  vis : ∀ p ∈ s.visited, InB W H p ∧ ReachG W H (GoodPx sc t orig) seeds nbrs p ∧
    (GoodPx sc t orig p → p ∈ R)
  que : ∀ q ∈ s.queue, InB W H q ∧ ReachG W H (GoodPx sc t orig) seeds nbrs q
  closed : ∀ p ∈ R, ∀ d ∈ nbrs, InB W H (p.1 + d.1, p.2 + d.2) →
    (p.1 + d.1, p.2 + d.2) ∈ s.visited ∨ (p.1 + d.1, p.2 + d.2) ∈ s.queue
  seedsIn : ∀ q ∈ seeds, q ∈ s.visited ∨ q ∈ s.queue

lemma mem_pushes {W H : ℕ} {nbrs : List (ℤ × ℤ)} {p q : ℤ × ℤ} :
    q ∈ pushes W H nbrs p ↔ (∃ d ∈ nbrs, q = (p.1 + d.1, p.2 + d.2)) ∧ InB W H q := by
  unfold pushes
  rw [List.mem_filter, List.mem_map]
  constructor
  · rintro ⟨⟨d, hd, rfl⟩, hb⟩
    exact ⟨⟨d, hd, rfl⟩, of_decide_eq_true hb⟩
  · rintro ⟨⟨d, hd, rfl⟩, hb⟩
    exact ⟨⟨d, hd, rfl⟩, decide_eq_true hb⟩

lemma bfsProcess_inv {W H : ℕ} {orig : ℤ × ℤ → Color} {sc : List Color} {t : ℚ}
    {nbrs seeds : List (ℤ × ℤ)} {s : BfsState} {R : Finset (ℤ × ℤ)} {p : ℤ × ℤ}
    {rest : List (ℤ × ℤ)} (hnb : nbrs.length ≤ 8)
    (hinv : BfsInv W H orig sc t nbrs seeds s R) (hq : s.queue = p :: rest) :
    ∃ R', BfsInv W H orig sc t nbrs seeds (bfsProcess W H sc t nbrs p rest s) R' ∧
      bfsMeasure W H (bfsProcess W H sc t nbrs p rest s) + 1 ≤ bfsMeasure W H s := by
  have hmemq : ∀ x, x ∈ s.queue ↔ x = p ∨ x ∈ rest := by
    intro x
    rw [hq, List.mem_cons]
  unfold bfsProcess
  by_cases hv : p ∈ s.visited
  · rw [if_pos hv]
    refine ⟨R, ⟨hinv.pxEq, hinv.cnt, hinv.sub, hinv.rspec, hinv.vis,
      fun x hx => hinv.que x ((hmemq x).mpr (Or.inr hx)), ?_, ?_⟩, ?_⟩
    · intro x hx d hd hb
      rcases hinv.closed x hx d hd hb with h | h
      · exact Or.inl h
      · rcases (hmemq _).mp h with h' | h'
        · exact Or.inl (h' ▸ hv)
        · exact Or.inr h'
    · intro x hx
      rcases hinv.seedsIn x hx with h | h
      · exact Or.inl h
      · rcases (hmemq x).mp h with h' | h'
        · exact Or.inl (h' ▸ hv)
        · exact Or.inr h'
    · unfold bfsMeasure
      rw [hq]
      dsimp only
      rw [List.length_cons]
      omega
  · rw [if_neg hv]
    have hpq := hinv.que p ((hmemq p).mpr (Or.inl rfl))
    have hpR : p ∉ R := fun hr => hv (hinv.sub p hr)
    have hppx : s.px p = orig p := by
      rw [hinv.pxEq p, if_neg hpR]
    have hpbnd : p ∈ boundsFinset W H \ s.visited := by
      rw [Finset.mem_sdiff, mem_boundsFinset]
      exact ⟨hpq.1, hv⟩
    have hcard : ((boundsFinset W H) \ insert p s.visited).card + 1 =
        ((boundsFinset W H) \ s.visited).card := by
      rw [Finset.sdiff_insert, Finset.card_erase_of_mem hpbnd]
      have : 0 < ((boundsFinset W H) \ s.visited).card := Finset.card_pos.mpr ⟨p, hpbnd⟩
      omega
    by_cases hm : matchesAny sc t (s.px p) = true
    · rw [if_pos hm]
      have hgood : GoodPx sc t orig p := by
        unfold GoodPx
        rw [← hppx]
        exact hm
      refine ⟨insert p R, ⟨?_, ?_, ?_, ?_, ?_, ?_, ?_, ?_⟩, ?_⟩
      · intro x
        dsimp only
        by_cases hxp : x = p
        · subst hxp
          rw [Function.update_same, if_pos (Finset.mem_insert_self x R)]
        · rw [Function.update_noteq hxp, hinv.pxEq x]
          by_cases hxR : x ∈ R
          · rw [if_pos hxR, if_pos (Finset.mem_insert_of_mem hxR)]
          · rw [if_neg hxR,
              if_neg (fun hc => hxR ((Finset.mem_insert.mp hc).resolve_left hxp))]
      · dsimp only
        rw [Finset.card_insert_of_not_mem hpR, hinv.cnt]
      · intro x hx
        dsimp only
        rcases Finset.mem_insert.mp hx with rfl | hx'
        · exact Finset.mem_insert_self x _
        · exact Finset.mem_insert_of_mem (hinv.sub x hx')
      · intro x hx
        rcases Finset.mem_insert.mp hx with rfl | hx'
        · exact ⟨hgood, hpq.2⟩
        · exact hinv.rspec x hx'
      · intro x hx
        dsimp only at hx
        rcases Finset.mem_insert.mp hx with rfl | hx'
        · exact ⟨hpq.1, hpq.2, fun _ => Finset.mem_insert_self x R⟩
        · obtain ⟨h1, h2, h3⟩ := hinv.vis x hx'
          exact ⟨h1, h2, fun hg => Finset.mem_insert_of_mem (h3 hg)⟩
      · intro x hx
        dsimp only at hx
        rcases List.mem_append.mp hx with hx' | hx'
        · exact hinv.que x ((hmemq x).mpr (Or.inr hx'))
        · obtain ⟨⟨d, hd, rfl⟩, hb⟩ := mem_pushes.mp hx'
          exact ⟨hb, ReachG.step p d hpq.2 hgood hd hb⟩
      · intro x hx d hd hb
        dsimp only
        rcases Finset.mem_insert.mp hx with rfl | hx'
        · exact Or.inr (List.mem_append.mpr (Or.inr (mem_pushes.mpr ⟨⟨d, hd, rfl⟩, hb⟩)))
        · rcases hinv.closed x hx' d hd hb with h | h
          · exact Or.inl (Finset.mem_insert_of_mem h)
          · rcases (hmemq _).mp h with h' | h'
            · exact Or.inl (h' ▸ Finset.mem_insert_self p s.visited)
            · exact Or.inr (List.mem_append.mpr (Or.inl h'))
      · intro x hx
        dsimp only
        rcases hinv.seedsIn x hx with h | h
        · exact Or.inl (Finset.mem_insert_of_mem h)
        · rcases (hmemq x).mp h with h' | h'
          · exact Or.inl (h' ▸ Finset.mem_insert_self p s.visited)
          · exact Or.inr (List.mem_append.mpr (Or.inl h'))
      · unfold bfsMeasure
        rw [hq]
        dsimp only
        have hpl : (pushes W H nbrs p).length ≤ 8 :=
          le_trans (le_trans (List.length_filter_le _ _) (le_of_eq (List.length_map _ _)))
            hnb
        rw [List.length_append, List.length_cons]
        omega
    · rw [if_neg hm]
      have hgoodn : ¬GoodPx sc t orig p := by
        unfold GoodPx
        rw [← hppx]
        exact hm
      refine ⟨R, ⟨hinv.pxEq, hinv.cnt, ?_, hinv.rspec, ?_, ?_, ?_, ?_⟩, ?_⟩
      · intro x hx
        exact Finset.mem_insert_of_mem (hinv.sub x hx)
      · intro x hx
        dsimp only at hx
        rcases Finset.mem_insert.mp hx with rfl | hx'
        · exact ⟨hpq.1, hpq.2, fun hg => absurd hg hgoodn⟩
        · exact hinv.vis x hx'
      · intro x hx
        exact hinv.que x ((hmemq x).mpr (Or.inr hx))
      · intro x hx d hd hb
        dsimp only
        rcases hinv.closed x hx d hd hb with h | h
        · exact Or.inl (Finset.mem_insert_of_mem h)
        · rcases (hmemq _).mp h with h' | h'
          · exact Or.inl (h' ▸ Finset.mem_insert_self p s.visited)
          · exact Or.inr h'
      · intro x hx
        dsimp only
        rcases hinv.seedsIn x hx with h | h
        · exact Or.inl (Finset.mem_insert_of_mem h)
        · rcases (hmemq x).mp h with h' | h'
          · exact Or.inl (h' ▸ Finset.mem_insert_self p s.visited)
          · exact Or.inr h'
      · unfold bfsMeasure
        rw [hq]
        dsimp only
        rw [List.length_cons]
        omega

lemma bfsRun_succ {W H : ℕ} {sc : List Color} {t : ℚ} {nbrs : List (ℤ × ℤ)}
    (fuel : ℕ) (s : BfsState) (p : ℤ × ℤ) (rest : List (ℤ × ℤ)) (hq : s.queue = p :: rest) :
    bfsRun W H sc t nbrs (fuel + 1) s =
      bfsRun W H sc t nbrs fuel (bfsProcess W H sc t nbrs p rest s) := by
  conv_lhs => unfold bfsRun
  rw [hq]

lemma bfsRun_inv {W H : ℕ} {orig : ℤ × ℤ → Color} {sc : List Color} {t : ℚ}
    {nbrs seeds : List (ℤ × ℤ)} (hnb : nbrs.length ≤ 8) :
    ∀ (fuel : ℕ) (s : BfsState) (R : Finset (ℤ × ℤ)),
      BfsInv W H orig sc t nbrs seeds s R → bfsMeasure W H s ≤ fuel →
      ∃ R', BfsInv W H orig sc t nbrs seeds (bfsRun W H sc t nbrs fuel s) R' ∧
        (bfsRun W H sc t nbrs fuel s).queue = []
  | 0, s, R, hinv, hle => by
    have hq : s.queue = [] := by
      unfold bfsMeasure at hle
      exact List.length_eq_zero.mp (by omega)
    exact ⟨R, hinv, hq⟩
  | fuel + 1, s, R, hinv, hle => by
    cases hq : s.queue with
    | nil =>
      rw [bfsRun_queue_nil (fuel + 1) s hq]
      exact ⟨R, hinv, hq⟩
    | cons p rest =>
      obtain ⟨R', hinv', hmeas⟩ := bfsProcess_inv hnb hinv hq
      rw [bfsRun_succ fuel s p rest hq]
      exact bfsRun_inv hnb fuel (bfsProcess W H sc t nbrs p rest s) R' hinv' (by omega)

lemma bfsRun_add {W H : ℕ} {sc : List Color} {t : ℚ} {nbrs : List (ℤ × ℤ)} :
    ∀ (fuel k : ℕ) (s : BfsState),
      (bfsRun W H sc t nbrs fuel s).queue = [] →
      bfsRun W H sc t nbrs (fuel + k) s = bfsRun W H sc t nbrs fuel s
  | 0, k, s, h => by
    rw [Nat.zero_add]
    exact bfsRun_queue_nil k s h
  | fuel + 1, k, s, h => by
    cases hq : s.queue with
    | nil => rw [bfsRun_queue_nil (fuel + 1 + k) s hq, bfsRun_queue_nil (fuel + 1) s hq]
    | cons p rest =>
      rw [bfsRun_succ fuel s p rest hq] at h
      rw [show fuel + 1 + k = (fuel + k) + 1 from by omega,
        bfsRun_succ (fuel + k) s p rest hq, bfsRun_succ fuel s p rest hq]
      exact bfsRun_add fuel k (bfsProcess W H sc t nbrs p rest s) h

lemma bfsFinal_spec {W H : ℕ} {orig : ℤ × ℤ → Color} {sc : List Color} {t : ℚ}
    {nbrs seeds : List (ℤ × ℤ)} {s : BfsState} {R : Finset (ℤ × ℤ)}
    (hinv : BfsInv W H orig sc t nbrs seeds s R) (hq : s.queue = []) :
    ∀ p, p ∈ R ↔ GoodPx sc t orig p ∧ ReachG W H (GoodPx sc t orig) seeds nbrs p := by
  have hvis : ∀ p, ReachG W H (GoodPx sc t orig) seeds nbrs p → p ∈ s.visited := by
    intro p hr
    induction hr with
    | seed q hqs =>
      rcases hinv.seedsIn q hqs with h | h
      · exact h
      · rw [hq] at h
        cases h
    | step q d _ hg hd hqin ih =>
      have hqR : q ∈ R := (hinv.vis q ih).2.2 hg
      rcases hinv.closed q hqR d hd hqin with h | h
      · exact h
      · rw [hq] at h
        cases h
  intro p
  constructor
  · exact hinv.rspec p
  · rintro ⟨hg, hr⟩
    exact (hinv.vis p (hvis p hr)).2.2 hg

/-- Removal condition `FloodRemoves img seeds t eightWay p`: pixel `p`'s original color matches
some seed color and `p` is reachable from a seed through a chain of grid-adjacent
matching pixels — the exact removal condition of `floodfill_remove`. -/
def FloodRemoves (img : Img) (seeds : List (ℤ × ℤ)) (t : ℚ) (eightWay : Bool)
    (p : ℤ × ℤ) : Prop :=
  seedMatches img seeds t p = true ∧
  ReachG img.width img.height (fun q => seedMatches img seeds t q = true) seeds
    (neighborList eightWay) p

/-- Full behavior of `floodfill_remove` on in-bounds seeds: there is a set `R`
of pixels — exactly the matching pixels reachable through matching pixels —
such that the result clears exactly `R`, leaves everything else unchanged, and
reports `|R|` as the removed count. -/
theorem floodfill_remove_spec (img : Img) (seeds : List (ℤ × ℤ)) (t : ℚ) (w8 : Bool)
    (hin : ∀ q ∈ seeds, InB img.width img.height q) :
    ∃ R : Finset (ℤ × ℤ),
      (∀ p, p ∈ R ↔ FloodRemoves img seeds t w8 p) ∧
      (∀ p, (floodfill_remove img seeds t w8).1.px p =
        if p ∈ R then clearColor else img.px p) ∧
      (floodfill_remove img seeds t w8).2 = R.card := by
  have hgood : ∀ q, GoodPx ((seeds.map (fun r => img.px r)).dedup) t img.px q ↔
      seedMatches img seeds t q = true := by
    intro q
    unfold GoodPx seedMatches
    rw [matchesAny_dedup]
  have hinit : BfsInv img.width img.height img.px ((seeds.map (fun q => img.px q)).dedup) t
      (neighborList w8) seeds ⟨img.px, ∅, seeds, 0⟩ ∅ := by
    refine ⟨fun p => by simp, by simp, ?_, ?_, ?_, ?_, ?_, ?_⟩
    · intro p hp
      exact absurd hp (Finset.not_mem_empty p)
    · intro p hp
      exact absurd hp (Finset.not_mem_empty p)
    · intro p hp
      exact absurd hp (Finset.not_mem_empty p)
    · intro q hqs
      exact ⟨hin q hqs, ReachG.seed q hqs⟩
    · intro p hp
      exact absurd hp (Finset.not_mem_empty p)
    · intro q hqs
      exact Or.inr hqs
  have hnb : (neighborList w8).length ≤ 8 := by
    cases w8 <;> decide
  have hmeas : bfsMeasure img.width img.height ⟨img.px, ∅, seeds, 0⟩ ≤
      floodfillFuel img seeds := by
    unfold bfsMeasure floodfillFuel boundsFinset
    dsimp only
    rw [Finset.sdiff_empty, List.toFinset_card_of_nodup (rasterCoords_nodup _ _),
      length_rasterCoords, Nat.mul_comm img.height img.width]
  obtain ⟨R, hfin, hqnil⟩ :=
    bfsRun_inv hnb (floodfillFuel img seeds) ⟨img.px, ∅, seeds, 0⟩ ∅ hinit hmeas
  refine ⟨R, ?_, fun p => hfin.pxEq p, hfin.cnt⟩
  intro p
  rw [bfsFinal_spec hfin hqnil p]
  unfold FloodRemoves
  constructor
  · rintro ⟨hg, hr⟩
    exact ⟨(hgood p).mp hg, ReachG_congr hgood hr⟩
  · rintro ⟨hg, hr⟩
    exact ⟨(hgood p).mpr hg, ReachG_congr (fun q => (hgood q).symm) hr⟩

/-- Unfolding of the match test: some seed's sampled color is within the
(inclusive) threshold of `p`'s color, in the square form of the embedding. -/
lemma seedMatches_true_iff {img : Img} {seeds : List (ℤ × ℤ)} {t : ℚ} {p : ℤ × ℤ} :
    seedMatches img seeds t p = true ↔
      ∃ q ∈ seeds, 0 ≤ t ∧ ((colorDistSq (img.px q) (img.px p) : ℚ) ≤ t ^ 2) := by
  unfold seedMatches matchesAny colorMatch
  rw [List.any_eq_true]
  constructor
  · rintro ⟨sc, hsc, hc⟩
    obtain ⟨q, hq, rfl⟩ := List.mem_map.mp hsc
    rw [Bool.and_eq_true, decide_eq_true_eq, decide_eq_true_eq] at hc
    exact ⟨q, hq, hc⟩
  · rintro ⟨q, hq, h0, hd⟩
    refine ⟨img.px q, List.mem_map.mpr ⟨q, hq, rfl⟩, ?_⟩
    rw [Bool.and_eq_true, decide_eq_true_eq, decide_eq_true_eq]
    exact ⟨h0, hd⟩

/-- The global purge count as the cardinality of the in-bounds matching set. -/
lemma global_purge_count (img : Img) (seeds : List (ℤ × ℤ)) (t : ℚ) :
    (global_purge img seeds t).2 =
      ((boundsFinset img.width img.height).filter
        (fun p => seedMatches img seeds t p)).card := by
  obtain ⟨-, -, -, hgcnt⟩ := global_purge_spec img seeds t
  rw [hgcnt, List.countP_eq_length_filter,
    ← List.toFinset_card_of_nodup
      ((rasterCoords_nodup img.width img.height).filter (fun p => seedMatches img seeds t p)),
    List.toFinset_filter]
  rfl

/-- Claim C1: `floodfill_remove` makes transparent exactly the pixels whose
original color is within threshold of a seed color and that are reachable from
a seed through a chain of grid-adjacent matching pixels; matching but
unreachable pixels are left unchanged. -/
theorem floodfill_remove_correct (img : Img) (seeds : List (ℤ × ℤ)) (t : ℚ) (w8 : Bool)
    (_hne : seeds ≠ []) (hin : ∀ q ∈ seeds, InB img.width img.height q) (p : ℤ × ℤ) :
    (FloodRemoves img seeds t w8 p →
      (floodfill_remove img seeds t w8).1.px p = clearColor) ∧
    (¬FloodRemoves img seeds t w8 p →
      (floodfill_remove img seeds t w8).1.px p = img.px p) := by
  obtain ⟨R, hR, hpx, -⟩ := floodfill_remove_spec img seeds t w8 hin
  exact ⟨fun h => by rw [hpx p, if_pos ((hR p).mpr h)],
    fun h => by rw [hpx p, if_neg (fun hc => h ((hR p).mp hc))]⟩

/-- Claim C3: on the same buffer, seeds and threshold, `global_purge` removes
at least as many pixels as `floodfill_remove`, with equality whenever every
in-bounds matching pixel is reachable from a seed through matching pixels. -/
theorem removal_counts_compare (img : Img) (seeds : List (ℤ × ℤ)) (t : ℚ) (w8 : Bool)
    (_hne : seeds ≠ []) (hin : ∀ q ∈ seeds, InB img.width img.height q) :
    (floodfill_remove img seeds t w8).2 ≤ (global_purge img seeds t).2 ∧
    ((∀ p, InB img.width img.height p → seedMatches img seeds t p = true →
        ReachG img.width img.height (fun q => seedMatches img seeds t q = true) seeds
          (neighborList w8) p) →
      (global_purge img seeds t).2 = (floodfill_remove img seeds t w8).2) := by
  obtain ⟨R, hR, -, hcnt⟩ := floodfill_remove_spec img seeds t w8 hin
  have hgc := global_purge_count img seeds t
  have hsub : R ⊆ (boundsFinset img.width img.height).filter
      (fun p => seedMatches img seeds t p) := by
    intro p hp
    obtain ⟨hg, hr⟩ := (hR p).mp hp
    rw [Finset.mem_filter, mem_boundsFinset]
    exact ⟨ReachG_inB hin hr, hg⟩
  constructor
  · rw [hcnt, hgc]
    exact Finset.card_le_card hsub
  · intro hall
    rw [hcnt, hgc]
    have heq : (boundsFinset img.width img.height).filter
        (fun p => seedMatches img seeds t p) = R := by
      refine Finset.Subset.antisymm ?_ hsub
      intro p hp
      rw [Finset.mem_filter, mem_boundsFinset] at hp
      exact (hR p).mpr ⟨hp.2, hall p hp.1 hp.2⟩
    rw [heq]

/-- Claim C6: the threshold comparison of both removal routines is inclusive —
a pixel at squared distance exactly `t²` from a sampled seed color is removed
(by `global_purge` anywhere in bounds, by `floodfill_remove` when reachable),
and a pixel strictly beyond the threshold from every seed color is removed by
neither. -/
theorem threshold_boundary (img : Img) (seeds : List (ℤ × ℤ)) (t : ℚ) (w8 : Bool)
    (_hne : seeds ≠ []) (hin : ∀ q ∈ seeds, InB img.width img.height q)
    (p s0 : ℤ × ℤ) (hs0 : s0 ∈ seeds) :
    ((0 ≤ t ∧ ((colorDistSq (img.px s0) (img.px p) : ℚ) = t ^ 2) ∧
        InB img.width img.height p) →
      (global_purge img seeds t).1.px p = clearColor) ∧
    ((0 ≤ t ∧ ((colorDistSq (img.px s0) (img.px p) : ℚ) = t ^ 2) ∧
        ReachG img.width img.height (fun q => seedMatches img seeds t q = true) seeds
          (neighborList w8) p) →
      (floodfill_remove img seeds t w8).1.px p = clearColor) ∧
    ((∀ q ∈ seeds, ¬(0 ≤ t ∧ ((colorDistSq (img.px q) (img.px p) : ℚ) ≤ t ^ 2))) →
      (global_purge img seeds t).1.px p = img.px p ∧
      (floodfill_remove img seeds t w8).1.px p = img.px p) := by
  obtain ⟨-, -, hgpx, -⟩ := global_purge_spec img seeds t
  obtain ⟨R, hR, hfpx, -⟩ := floodfill_remove_spec img seeds t w8 hin
  refine ⟨?_, ?_, ?_⟩
  · rintro ⟨h0, he, hb⟩
    have hm : seedMatches img seeds t p = true :=
      seedMatches_true_iff.mpr ⟨s0, hs0, h0, le_of_eq he⟩
    rw [hgpx p, if_pos ⟨hb, hm⟩]
  · rintro ⟨h0, he, hr⟩
    have hm : seedMatches img seeds t p = true :=
      seedMatches_true_iff.mpr ⟨s0, hs0, h0, le_of_eq he⟩
    rw [hfpx p, if_pos ((hR p).mpr ⟨hm, hr⟩)]
  · intro hall
    have hm : ¬(seedMatches img seeds t p = true) := fun hc => by
      obtain ⟨q, hq, h0, hd⟩ := seedMatches_true_iff.mp hc
      exact hall q hq ⟨h0, hd⟩
    constructor
    · rw [hgpx p, if_neg (fun hc => hm hc.2)]
    · rw [hfpx p, if_neg (fun hc => hm ((hR p).mp hc).1)]

/-- The final flood-fill state satisfies the loop invariant with an empty
queue. -/
lemma floodfillRun_inv (img : Img) (seeds : List (ℤ × ℤ)) (t : ℚ) (w8 : Bool)
    (hin : ∀ q ∈ seeds, InB img.width img.height q) :
    ∃ R, BfsInv img.width img.height img.px ((seeds.map (fun q => img.px q)).dedup) t
      (neighborList w8) seeds (floodfillRun img seeds t w8) R ∧
      (floodfillRun img seeds t w8).queue = [] := by
  have hinit : BfsInv img.width img.height img.px ((seeds.map (fun q => img.px q)).dedup) t
      (neighborList w8) seeds ⟨img.px, ∅, seeds, 0⟩ ∅ := by
    refine ⟨fun p => by simp, by simp, ?_, ?_, ?_, ?_, ?_, ?_⟩
    · intro p hp
      exact absurd hp (Finset.not_mem_empty p)
    · intro p hp
      exact absurd hp (Finset.not_mem_empty p)
    · intro p hp
      exact absurd hp (Finset.not_mem_empty p)
    · intro q hqs
      exact ⟨hin q hqs, ReachG.seed q hqs⟩
    · intro p hp
      exact absurd hp (Finset.not_mem_empty p)
    · intro q hqs
      exact Or.inr hqs
  have hnb : (neighborList w8).length ≤ 8 := by
    cases w8 <;> decide
  have hmeas : bfsMeasure img.width img.height ⟨img.px, ∅, seeds, 0⟩ ≤
      floodfillFuel img seeds := by
    unfold bfsMeasure floodfillFuel boundsFinset
    dsimp only
    rw [Finset.sdiff_empty, List.toFinset_card_of_nodup (rasterCoords_nodup _ _),
      length_rasterCoords, Nat.mul_comm img.height img.width]
  exact bfsRun_inv hnb (floodfillFuel img seeds) ⟨img.px, ∅, seeds, 0⟩ ∅ hinit hmeas

/-- Claim C7: the BFS loop of `floodfill_remove` terminates — the allotted fuel
empties the queue (extra fuel changes nothing), and only in-bounds pixels are
ever marked visited. -/
theorem floodfill_terminates (img : Img) (seeds : List (ℤ × ℤ)) (t : ℚ) (w8 : Bool)
    (hin : ∀ q ∈ seeds, InB img.width img.height q) :
    (floodfillRun img seeds t w8).queue = [] ∧
    (∀ extra : ℕ,
      bfsRun img.width img.height ((seeds.map (fun q => img.px q)).dedup) t
        (neighborList w8) (floodfillFuel img seeds + extra) ⟨img.px, ∅, seeds, 0⟩ =
        floodfillRun img seeds t w8) ∧
    (∀ p ∈ (floodfillRun img seeds t w8).visited, InB img.width img.height p) := by
  obtain ⟨R, hfin, hqnil⟩ := floodfillRun_inv img seeds t w8 hin
  exact ⟨hqnil, fun extra => bfsRun_add (floodfillFuel img seeds) extra _ hqnil,
    fun p hp => (hfin.vis p hp).1⟩

/-- Claim C9: both removal routines keep the buffer dimensions, set every pixel
either to its original value or to `(0,0,0,0)`, and report as removed count
the exact number of cleared cells — a set whose membership test ignores the
pixel's alpha, so an already fully transparent matching pixel is counted. -/
theorem removal_frame_effect (img : Img) (seeds : List (ℤ × ℤ)) (t : ℚ) (w8 : Bool)
    (hin : ∀ q ∈ seeds, InB img.width img.height q) :
    (floodfill_remove img seeds t w8).1.width = img.width ∧
    (floodfill_remove img seeds t w8).1.height = img.height ∧
    (global_purge img seeds t).1.width = img.width ∧
    (global_purge img seeds t).1.height = img.height ∧
    (∀ p, (floodfill_remove img seeds t w8).1.px p = img.px p ∨
      (floodfill_remove img seeds t w8).1.px p = clearColor) ∧
    (∀ p, (global_purge img seeds t).1.px p = img.px p ∨
      (global_purge img seeds t).1.px p = clearColor) ∧
    (∃ R : Finset (ℤ × ℤ), (∀ p, p ∈ R ↔ FloodRemoves img seeds t w8 p) ∧
      (floodfill_remove img seeds t w8).2 = R.card) ∧
    (global_purge img seeds t).2 =
      ((boundsFinset img.width img.height).filter
        (fun p => seedMatches img seeds t p)).card := by
  obtain ⟨R, hR, hfpx, hfcnt⟩ := floodfill_remove_spec img seeds t w8 hin
  obtain ⟨-, -, hgpx, -⟩ := global_purge_spec img seeds t
  refine ⟨rfl, rfl, rfl, rfl, ?_, ?_, ⟨R, hR, hfcnt⟩, global_purge_count img seeds t⟩
  · intro p
    rw [hfpx p]
    by_cases hp : p ∈ R
    · exact Or.inr (if_pos hp)
    · exact Or.inl (if_neg hp)
  · intro p
    rw [hgpx p]
    by_cases hp : InB img.width img.height p ∧ seedMatches img seeds t p = true
    · exact Or.inr (if_pos hp)
    · exact Or.inl (if_neg hp)

/-! ### Concrete instances -/

/-- A 2×1 buffer: a red pixel at (0,0) and a blue pixel at (1,0). -/
def sampleImg : Img :=
  ⟨2, 1, fun p => if p = (0, 0) then ⟨255, 0, 0, 255⟩ else ⟨0, 0, 255, 255⟩⟩

/-- A 4×5 buffer fully transparent except for one opaque pixel at (2,3). -/
def dotImg : Img :=
  ⟨4, 5, fun p => if p = (2, 3) then ⟨9, 9, 9, 255⟩ else ⟨0, 0, 0, 0⟩⟩

/-- A 3×1 buffer whose middle pixel is at RGB distance exactly 5 from the
left pixel and whose right pixel is far beyond. -/
def distImg : Img :=
  ⟨3, 1, fun p =>
    if p = (0, 0) then ⟨0, 0, 0, 255⟩
    else if p = (1, 0) then ⟨3, 4, 0, 255⟩
    else ⟨200, 0, 0, 255⟩⟩

/-- Witness for `floodfill_remove_correct`: on `sampleImg` with seed (0,0) and
threshold 600 the blue pixel (1,0) matches and is seed-adjacent, so it is
cleared. -/
theorem floodfill_remove_correct_witness :
    (([((0 : ℤ), (0 : ℤ))] : List (ℤ × ℤ)) ≠ []) ∧
    (∀ q ∈ ([((0 : ℤ), (0 : ℤ))] : List (ℤ × ℤ)), InB sampleImg.width sampleImg.height q) ∧
    (floodfill_remove sampleImg [(0, 0)] 600 false).1.px (1, 0) = clearColor := by
  have hm0 : seedMatches sampleImg [(0, 0)] 600 (0, 0) = true :=
    seedMatches_true_iff.mpr ⟨(0, 0), by simp, by norm_num [sampleImg, colorDistSq]⟩
  have hm1 : seedMatches sampleImg [(0, 0)] 600 (1, 0) = true :=
    seedMatches_true_iff.mpr ⟨(0, 0), by simp, by norm_num [sampleImg, colorDistSq]⟩
  refine ⟨by decide, by decide, ?_⟩
  refine (floodfill_remove_correct sampleImg [(0, 0)] 600 false (by decide) (by decide)
    (1, 0)).1 ⟨hm1, ?_⟩
  exact ReachG.step (0, 0) (1, 0) (ReachG.seed (0, 0) (by simp)) hm0 (by decide) (by decide)

/-- Witness for `global_purge_correct`: on `sampleImg` with seed (0,0) and
threshold 600 the disconnected-color pixel (1,0) matches and is cleared. -/
theorem global_purge_correct_witness :
    (([((0 : ℤ), (0 : ℤ))] : List (ℤ × ℤ)) ≠ []) ∧
    (global_purge sampleImg [(0, 0)] 600).1.px (1, 0) = clearColor := by
  have hm1 : seedMatches sampleImg [(0, 0)] 600 (1, 0) = true :=
    seedMatches_true_iff.mpr ⟨(0, 0), by simp, by norm_num [sampleImg, colorDistSq]⟩
  refine ⟨by decide, ?_⟩
  exact ((global_purge_correct sampleImg [(0, 0)] 600 (by decide) (by decide)).1
    (1, 0) (by decide)).1 hm1

/-- Witness for `removal_counts_compare` at `sampleImg`, seed (0,0),
threshold 7. -/
theorem removal_counts_compare_witness :
    (([((0 : ℤ), (0 : ℤ))] : List (ℤ × ℤ)) ≠ []) ∧
    (floodfill_remove sampleImg [(0, 0)] 7 false).2 ≤ (global_purge sampleImg [(0, 0)] 7).2 :=
  ⟨by decide, (removal_counts_compare sampleImg [(0, 0)] 7 false (by decide) (by decide)).1⟩

/-- Witness for `trim_transparent_correct`: the single opaque pixel at (2,3)
yields the box (2,3,3,4) and a 1×1 result. -/
theorem trim_transparent_correct_witness :
    NT dotImg (2, 3) ∧ (trim_transparent dotImg).2 = ⟨2, 3, 3, 4⟩ ∧
    (trim_transparent dotImg).1.width = 1 ∧ (trim_transparent dotImg).1.height = 1 := by
  have hnt : NT dotImg (2, 3) := by decide
  have hex : ∃ p, NT dotImg p := ⟨(2, 3), hnt⟩
  obtain ⟨hcont, hmin, hw, hh, -⟩ := (trim_transparent_correct dotImg).1 hex
  have hall : ∀ p : ℤ × ℤ, NT dotImg p → p = (2, 3) := by
    intro p hp
    by_contra hne
    have hz : dotImg.px p = ⟨0, 0, 0, 0⟩ := by
      unfold dotImg
      dsimp only
      rw [if_neg hne]
    exact hp.2 (by rw [hz])
  have h1 := hcont (2, 3) hnt
  have h2 := hmin ⟨2, 3, 3, 4⟩ (fun p hp => by
    obtain rfl := hall p hp
    decide)
  dsimp only at h1 h2
  refine ⟨hnt, ?_, ?_, ?_⟩
  · ext <;> dsimp only <;> omega
  · omega
  · omega

/-- Witness for `threshold_boundary`: in `distImg` the pixel (1,0) is at RGB
distance exactly 5 from the seed color and is cleared by the global purge at
threshold 5. -/
theorem threshold_boundary_witness :
    (([((0 : ℤ), (0 : ℤ))] : List (ℤ × ℤ)) ≠ []) ∧
    (global_purge distImg [(0, 0)] 5).1.px (1, 0) = clearColor := by
  refine ⟨by decide, ?_⟩
  exact (threshold_boundary distImg [(0, 0)] 5 false (by decide) (by decide)
    (1, 0) (0, 0) (by simp)).1
    ⟨by norm_num, by norm_num [distImg, colorDistSq], by decide⟩

/-- Witness for `floodfill_terminates` at `sampleImg`. -/
theorem floodfill_terminates_witness :
    (∀ q ∈ ([((0 : ℤ), (0 : ℤ))] : List (ℤ × ℤ)), InB sampleImg.width sampleImg.height q) ∧
    (floodfillRun sampleImg [(0, 0)] 7 false).queue = [] :=
  ⟨by decide, (floodfill_terminates sampleImg [(0, 0)] 7 false (by decide)).1⟩

/-- Witness for `removal_frame_effect` at `sampleImg`. -/
theorem removal_frame_effect_witness :
    (∀ q ∈ ([((0 : ℤ), (0 : ℤ))] : List (ℤ × ℤ)), InB sampleImg.width sampleImg.height q) ∧
    (floodfill_remove sampleImg [(0, 0)] 7 false).1.width = 2 ∧
    (global_purge sampleImg [(0, 0)] 7).1.width = 2 :=
  ⟨by decide, (removal_frame_effect sampleImg [(0, 0)] 7 false (by decide)).1,
    (removal_frame_effect sampleImg [(0, 0)] 7 false (by decide)).2.2.1⟩

end FloodfillBg
